import Mathlib

/-!
A verification development for the `ical-print` pipeline: the event data
model, the regex filter stage, the comparator-based sort, the month
grouping pass, and the HTML rendering helpers are embedded as Lean
functions, and the behavioural properties of the tool are proved about
those functions.

External collaborators (the JavaScript regular-expression engine, the
time-zone database behind `formatInTimeZone`/`toLocaleTimeString`, and the
locale behind `localeCompare`) are modelled abstractly or by a fixed
representative, as noted on each definition.
-/

namespace IcalPrint

/-- The normalized event record produced by the parser (`EventItem` in the
source).  `start`/`end` instants are modelled as millisecond timestamps
(`Date.valueOf()`); the source's `end` field is called `end_` here because
`end` is a Lean keyword. -/
structure EventItem where
  uid : Option String
  summary : String
  description : String
  location : String
  start : Option Int
  end_ : Option Int
deriving DecidableEq

/-- The CLI options record (`Opts` in the source), with the commander
defaults.  `output` and `debug` do not affect the pipeline functions. -/
structure Opts where
  output : String := "calendar.html"
  filter : Option String := none
  invert : Bool := false
  caseSensitive : Bool := false
  title : String := "Calendar"
  includeSummary : Bool := false
  includeMeta : Bool := true
  includeDesc : Bool := false
  debug : Bool := false
deriving DecidableEq

/-- Three-way lexicographic comparison of character sequences by code
point. -/
def charListCompare : List Char → List Char → Int
  | [], [] => 0
  | [], _ :: _ => -1
  | _ :: _, [] => 1
  | a :: as, b :: bs =>
    if a.toNat < b.toNat then -1
    else if b.toNat < a.toNat then 1
    else charListCompare as bs

/-- Models `String.prototype.localeCompare` as the three-way comparison of
the lexicographic order on strings by code point (a fixed representative
of the process locale's collation). -/
def localeCompare (s t : String) : Int :=
  charListCompare s.data t.data

/-- The comparator of `sortEvents` (source lines 166-173): absent `start`
sorts after present `start`; two present starts compare by instant value;
two absent starts compare by `localeCompare` of the summaries. -/
def cmpEvents (a b : EventItem) : Int :=
  match a.start, b.start with
  | none, some _ => 1
  | some _, none => -1
  | some x, some y => x - y
  | none, none => localeCompare a.summary b.summary

/-- Boolean `≤` induced by `cmpEvents` (comparator result `≤ 0`). -/
def leEvents (a b : EventItem) : Bool :=
  cmpEvents a b ≤ 0

/-- The comparator of the re-sort at the top of `groupByMonth` (source
lines 179-184): absent `start` is treated as `+Infinity`, and whenever the
two key values are equal (including two equal present instants) the tie is
broken by `localeCompare` of the summaries. -/
def cmpGroup (a b : EventItem) : Int :=
  match a.start, b.start with
  | none, none => localeCompare a.summary b.summary
  | none, some _ => 1
  | some _, none => -1
  | some x, some y => if x = y then localeCompare a.summary b.summary else x - y

/-- Boolean `≤` induced by `cmpGroup`. -/
def leGroup (a b : EventItem) : Bool :=
  cmpGroup a b ≤ 0

/-- Stable insertion of `x` into a list: `x` is placed before the first
element `y` with `le x y`. -/
def insertSorted (le : α → α → Bool) (x : α) : List α → List α
  | [] => [x]
  | y :: ys => if le x y then x :: y :: ys else y :: insertSorted le x ys

/-- Stable comparator sort, the model of `Array.prototype.sort` (which
ECMAScript requires to be stable): elements are inserted left-to-right,
each before the strictly-greater part of the already-sorted suffix, so
elements that compare equal keep their original relative order. -/
def sortByComparator (le : α → α → Bool) (l : List α) : List α :=
  l.foldr (insertSorted le) []

/-- Embeds `sortEvents` (source lines 166-173). -/
def sortEvents (events : List EventItem) : List EventItem :=
  sortByComparator leEvents events

/-- The in-place re-sort performed at the top of `groupByMonth` (source
lines 179-184). -/
def gsortEvents (events : List EventItem) : List EventItem :=
  sortByComparator leGroup events

/-!  Date formatting.

The source formats instants with `date-fns-tz`'s `formatInTimeZone` in the
process-local time zone (`Intl.DateTimeFormat().resolvedOptions().timeZone`)
and with `Date.prototype.toLocaleTimeString`.  These external collaborators
are modelled by an executable Gregorian-calendar computation in a fixed
display-zone offset. -/
/-- The display time zone, modelled as a fixed offset (in milliseconds)
from UTC.  Models `currentTimeZone` (source lines 175-176). -/
def displayZoneOffsetMs : Int := 0

/-- Days since the Unix epoch of the wall-clock date of instant `t` in the
display zone. -/
def daysFromMs (t : Int) : Int :=
  (t + displayZoneOffsetMs) / 86400000

/-- Milliseconds elapsed since local midnight for instant `t`. -/
def msOfDay (t : Int) : Int :=
  (t + displayZoneOffsetMs) % 86400000

/-- Proleptic-Gregorian civil date `(year, month, day)` from a count of
days since 1970-01-01 (the standard `civil_from_days` algorithm). -/
def civilFromDays (z0 : Int) : Int × Int × Int :=
  let z := z0 + 719468
  let era := z / 146097
  let doe := z - era * 146097
  let yoe := (doe - doe / 1460 + doe / 36524 - doe / 146096) / 365
  let y := yoe + era * 400
  let doy := doe - (365 * yoe + yoe / 4 - yoe / 100)
  let mp := (5 * doy + 2) / 153
  let d := doy - (153 * mp + 2) / 5 + 1
  let m := mp + (if mp < 10 then 3 else -9)
  (y + (if m ≤ 2 then 1 else 0), m, d)

/-- Civil year of instant `t` in the display zone. -/
def yearOf (t : Int) : Int := (civilFromDays (daysFromMs t)).1

/-- Civil month (1..12) of instant `t` in the display zone. -/
def monthOf (t : Int) : Int := (civilFromDays (daysFromMs t)).2.1

/-- Civil day of month of instant `t` in the display zone. -/
def dayOf (t : Int) : Int := (civilFromDays (daysFromMs t)).2.2

/-- English month name for the `MMMM` format token. -/
def monthName (m : Int) : String :=
  match m with
  | 1 => "January"
  | 2 => "February"
  | 3 => "March"
  | 4 => "April"
  | 5 => "May"
  | 6 => "June"
  | 7 => "July"
  | 8 => "August"
  | 9 => "September"
  | 10 => "October"
  | 11 => "November"
  | 12 => "December"
  | _ => ""

/-- English day-of-week name (0 = Sunday) for the `EEEE` format token. -/
def dayName (d : Int) : String :=
  match d with
  | 0 => "Sunday"
  | 1 => "Monday"
  | 2 => "Tuesday"
  | 3 => "Wednesday"
  | 4 => "Thursday"
  | 5 => "Friday"
  | 6 => "Saturday"
  | _ => ""

/-- Day of week (0 = Sunday) of instant `t` (1970-01-01 was a Thursday). -/
def dowOf (t : Int) : Int := (daysFromMs t + 4) % 7

/-- Two-digit decimal rendering of `n` (for `0 ≤ n ≤ 99`). -/
def pad2 (n : Int) : String :=
  String.mk (if n < 10 then [Char.ofNat 48, Char.ofNat (48 + n.toNat)]
    else [Char.ofNat (48 + n.toNat / 10), Char.ofNat (48 + n.toNat % 10)])

/-- Year rendering for the `yyyy` format token: padded with zeros to at
least four digits. -/
def pad4 (y : Int) : String :=
  let n := y.toNat
  if n < 10 then "000" ++ toString n
  else if n < 100 then "00" ++ toString n
  else if n < 1000 then "0" ++ toString n
  else toString n

/-- Hour of day (0..23) of instant `t` in the display zone. -/
def hour24 (t : Int) : Int := msOfDay t / 3600000

/-- Minute (0..59) of instant `t` in the display zone. -/
def minuteOf (t : Int) : Int := msOfDay t / 60000 % 60

/-- Twelve-hour clock hour for the `hh` format token. -/
def hour12 (h : Int) : Int := if h % 12 = 0 then 12 else h % 12

/-- Selects the `AM`/`PM` marker for the `a` format token. -/
def ampm (h : Int) : String := if h < 12 then "AM" else "PM"

/-- Renders the `hh:mm a` time-of-day text of instant `t`; models
`Date.prototype.toLocaleTimeString([], { hour: "2-digit", minute: "2-digit" })`. -/
def timeOfDayStr (t : Int) : String :=
  pad2 (hour12 (hour24 t)) ++ ":" ++ pad2 (minuteOf t) ++ " " ++ ampm (hour24 t)

/-- Embeds `formatTime` (source lines 202-205): empty string for an absent date,
otherwise the locale time-of-day text. -/
def formatTime (date : Option Int) : String :=
  match date with
  | none => ""
  | some t => timeOfDayStr t

/-- Models `formatInTimeZone(date, currentTimeZone, "MMMM yyyy")`: the
month-name plus four-digit-year group label. -/
def formatMonthYear (t : Int) : String :=
  monthName (monthOf t) ++ " " ++ pad4 (yearOf t)

/-- Models `formatInTimeZone(date, currentTimeZone,
"EEEE, MMMM d, yyyy hh:mm a")`: the per-event date/time heading. -/
def formatDateTime (t : Int) : String :=
  dayName (dowOf t) ++ ", " ++ monthName (monthOf t) ++ " " ++
    toString (dayOf t).toNat ++ ", " ++ pad4 (yearOf t) ++ " " ++
    pad2 (hour12 (hour24 t)) ++ ":" ++ pad2 (minuteOf t) ++ " " ++ ampm (hour24 t)

/-!  Grouping. -/
/-- A contiguous month bucket (`{ groupKey, events }` in the source). -/
structure Group where
  groupKey : String
  events : List EventItem
deriving DecidableEq

/-- The group key computed inside `groupByMonth`'s loop (source lines
188-190): the `MMMM yyyy` label of `start` in the display zone, or the
fixed key `"Unknown"` when `start` is absent. -/
def groupKeyOf (ev : EventItem) : String :=
  match ev.start with
  | some t => formatMonthYear t
  | none => "Unknown"

/-- One iteration of `groupByMonth`'s `forEach` body (source lines
187-197): look at the last group (`groups.at(-1)`); if there is none or
its key differs from the event's key, push a fresh group; then push the
event into the (possibly fresh) last group. -/
def groupStep (groups : List Group) (ev : EventItem) : List Group :=
  let key := groupKeyOf ev
  match groups.getLast? with
  | some g =>
      if g.groupKey = key then groups.dropLast ++ [⟨g.groupKey, g.events ++ [ev]⟩]
      else groups ++ [⟨key, [ev]⟩]
  | none => [⟨key, [ev]⟩]

/-- Embeds `groupByMonth` (source lines 178-200): the input is first re-sorted in
place with `cmpGroup` and then chunked by the single `forEach` pass. -/
def groupByMonth (events : List EventItem) : List Group :=
  (gsortEvents events).foldl groupStep []

/-- Modelled from the spec's words (section 4.4 and claim C4): the
single-pass chunking of a sequence in the order given, where a new Group
begins exactly when an event's computed key differs from the currently
open Group's key, so maximal runs of adjacent same-key events form one
Group each and the empty sequence yields no Groups. -/
def specChunk : List EventItem → List Group
  | [] => []
  | e :: rest =>
    match specChunk rest with
    | [] => [⟨groupKeyOf e, [e]⟩]
    | g :: gs =>
        if groupKeyOf e == g.groupKey then ⟨g.groupKey, e :: g.events⟩ :: gs
        else ⟨groupKeyOf e, [e]⟩ :: g :: gs

/-- The tail-recursive shape of the `forEach` pass once at least one group
is open: `consume g l` processes the remaining events `l` with `g` as the
currently open (last) group. -/
def consume (g : Group) : List EventItem → List Group
  | [] => [g]
  | e :: rest =>
      if groupKeyOf e = g.groupKey then consume ⟨g.groupKey, g.events ++ [e]⟩ rest
      else g :: consume ⟨groupKeyOf e, [e]⟩ rest

/-- Prepend an open group onto an already-chunked suffix, merging it with
the first chunk when the keys agree. -/
def mergeLeft (g : Group) (gs : List Group) : List Group :=
  match gs with
  | [] => [g]
  | h :: t => if h.groupKey == g.groupKey then ⟨g.groupKey, g.events ++ h.events⟩ :: t
      else g :: h :: t

/-- Boolean check that no two adjacent groups of a list share a key. -/
def adjacentDistinct : List Group → Bool
  | [] => true
  | [_] => true
  | a :: b :: t => (a.groupKey != b.groupKey) && adjacentDistinct (b :: t)

/-!  Regex filter stage.

The JavaScript regular-expression engine is an external collaborator: a
compiled regex value is modelled by its observable fields (`source`,
`ignoreCase`), syntax checking by an abstract `syntaxCheck` oracle
(`none` = the pattern compiles, `some msg` = the engine's syntax error
message), and matching by an abstract `test` oracle. -/
/-- The observable state of a compiled `RegExp` value: the pattern source
and the `i` flag. -/
structure RegExpM where
  source : String
  ignoreCase : Bool
deriving DecidableEq

/-- Models the `new RegExp(pattern, flags)` constructor: it throws the
engine's syntax error for an invalid pattern and otherwise returns the
compiled regex carrying exactly the requested pattern and flag. -/
def newRegExp (syntaxCheck : String → Option String) (p : String) (ic : Bool) :
    Except String RegExpM :=
  match syntaxCheck p with
  | some msg => Except.error msg
  | none => Except.ok ⟨p, ic⟩

/-- Embeds `makeMatcher` (source lines 142-146): a falsy (absent or empty)
pattern yields no matcher; otherwise the pattern is compiled at once, with
the `i` flag unless `caseSensitive` is set. -/
def makeMatcher (syntaxCheck : String → Option String) (pattern : Option String)
    (caseSensitive : Bool) : Except String (Option RegExpM) :=
  match pattern with
  | none => Except.ok none
  | some p =>
      if p = "" then Except.ok none
      else (newRegExp syntaxCheck p (!caseSensitive)).map some

/-- JavaScript truthiness of an optional string. -/
def optTruthy : Option String → Bool
  | none => false
  | some s => !(s == "")

/-- Embeds `applyFilter` (source lines 148-159): with no matcher the events pass
through unchanged; with a matcher, an event is kept exactly when the
regex test of the summary/description/location haystack — negated under
`invert` — succeeds. -/
def applyFilter (test : RegExpM → String → Bool) (events : List EventItem)
    (matcher : Option RegExpM) (invert : Bool) : List EventItem :=
  match matcher with
  | none => events
  | some m =>
      events.filter fun e =>
        let hay := e.summary ++ "\n" ++ e.description ++ "\n" ++ e.location
        let matched := test m hay
        if invert then !matched else matched

/-- The filter stage of the CLI action (source lines 70-74): construct the
matcher from the options (a thrown syntax error aborts the stage before
any event is examined) and then apply it. -/
def filterStage (syntaxCheck : String → Option String) (test : RegExpM → String → Bool)
    (opts : Opts) (events : List EventItem) : Except String (List EventItem) :=
  match (if optTruthy opts.filter then
      makeMatcher syntaxCheck opts.filter opts.caseSensitive
    else Except.ok none) with
  | Except.error msg => Except.error msg
  | Except.ok matcher => Except.ok (applyFilter test events matcher opts.invert)

/-!  HTML escaping. -/
/-- The ampersand character. -/
def ampC : Char := Char.ofNat 38

/-- The less-than character. -/
def ltC : Char := Char.ofNat 60

/-- The greater-than character. -/
def gtC : Char := Char.ofNat 62

/-- The double-quote character. -/
def quotC : Char := Char.ofNat 34

/-- The apostrophe character. -/
def aposC : Char := Char.ofNat 39

/-- Replacement entity for `&`. -/
def entAmp : String := "&amp;"

/-- Replacement entity for `<`. -/
def entLt : String := "&lt;"

/-- Replacement entity for `>`. -/
def entGt : String := "&gt;"

/-- Replacement entity for the double quote. -/
def entQuot : String := "&quot;"

/-- Replacement entity for the apostrophe. -/
def entApos : String := "&#39;"

/-- Models `String.prototype.replaceAll` specialised to a single-character
search string: every occurrence of `c` is replaced by `r`. -/
def replaceAllC (c : Char) (r : String) (s : String) : String :=
  String.mk (s.data.flatMap fun x => if x = c then r.data else [x])

/-- Embeds `escapeHtml` (source lines 283-291): empty (or absent) input maps to
the empty string; otherwise the five replacement passes run left to
right, the ampersand pass first. -/
def escapeHtml (s : String) : String :=
  if s = "" then ""
  else
    replaceAllC aposC entApos
      (replaceAllC quotC entQuot
        (replaceAllC gtC entGt
          (replaceAllC ltC entLt
            (replaceAllC ampC entAmp s))))

/-- The per-character replacement table stated by the spec: each of the
five markup-significant characters maps to its entity, every other
character to itself. -/
def escC (x : Char) : List Char :=
  if x = ampC then entAmp.data
  else if x = ltC then entLt.data
  else if x = gtC then entGt.data
  else if x = quotC then entQuot.data
  else if x = aposC then entApos.data
  else [x]

/-- The entity bodies that may legitimately follow an ampersand in escaped
output. -/
def entityTails : List (List Char) :=
  [entAmp.data.tail, entLt.data.tail, entGt.data.tail, entQuot.data.tail,
    entApos.data.tail]

/-- Does `l` begin with one of the five entity bodies? -/
def isEntityStart (l : List Char) : Bool :=
  entityTails.any fun t => t.isPrefixOf l

/-- Is `c` one of the four characters that may never appear at all in
escaped text? -/
def isRawSpecial (c : Char) : Bool :=
  c == ltC || c == gtC || c == quotC || c == aposC

/-- Escaped-cleanliness of a character sequence: none of `< > " '` occurs,
and every ampersand starts one of the five entities — i.e. no raw
occurrence of the five markup characters. -/
def escapedClean : List Char → Bool
  | [] => true
  | c :: rest =>
      if isRawSpecial c then false
      else if c == ampC then isEntityStart rest && escapedClean rest
      else escapedClean rest

/-!  Rendering. -/
/-- The newline separator used by the `.join("\n")` calls. -/
def newlineSep : String := "\n"

/-- The time-range text computed per event inside `renderHTML`'s map
callback (source lines 229-232): formatted start and end joined by an
en-dash when the end text is non-empty, guarded by the JavaScript
truthiness of the two formatted strings. -/
def timeRangeOf (ev : EventItem) : String :=
  let startS := match ev.start with
    | some t => formatTime (some t)
    | none => ""
  let endS := match ev.end_ with
    | some t => formatTime (some t)
    | none => ""
  if startS ≠ "" ∨ endS ≠ "" then startS ++ (if endS ≠ "" then " – " ++ endS else "")
  else ""

/-- One event entry of `renderHTML` (the template literal at source lines
233-259), with the source's inline conditionals. -/
def eventHtml (opts : Opts) (ev : EventItem) : String :=
  "\n\n        <div class=\"event\">\n           <h3 class=\"date\">" ++
    (match ev.start with
      | some t => formatDateTime t
      | none => "?") ++
    "</h3>\n          <div class=\"summary " ++
    (if opts.includeSummary then "" else "hidden") ++
    "\">" ++ escapeHtml ev.summary ++
    "</div>\n          <div class=\"meta " ++
    (if opts.includeMeta then "" else "hidden") ++
    "\">" ++ escapeHtml ev.location ++ " " ++
    (if timeRangeOf ev ≠ "" then " • " ++ timeRangeOf ev else "") ++
    "</div>\n          " ++
    (if ev.description ≠ "" then
      "<div class=\"desc " ++ (if opts.includeDesc then "" else "hidden") ++ "\">" ++
        escapeHtml ev.description ++ "</div>"
    else "") ++
    "\n        </div>\n      "

/-- Modelled from the spec's words (section 4.5 and claim C7): the event
entry always contains the date/time heading (formatted `start` or the
placeholder sentinel `?`); the summary and meta elements are always in
the tree and carry the `hidden` class exactly when their toggle is off;
the description element carries `hidden` exactly when `includeDesc` is
off but is omitted from the tree entirely when the description is the
empty string. -/
def entrySpecView (opts : Opts) (ev : EventItem) : String :=
  let heading := match ev.start with
    | some t => formatDateTime t
    | none => "?"
  let summaryCls := if opts.includeSummary = false then "hidden" else ""
  let metaCls := if opts.includeMeta = false then "hidden" else ""
  let descBlock :=
    if ev.description = "" then ""
    else
      "<div class=\"desc " ++ (if opts.includeDesc = false then "hidden" else "") ++
        "\">" ++ escapeHtml ev.description ++ "</div>"
  "\n\n        <div class=\"event\">\n           <h3 class=\"date\">" ++ heading ++
    "</h3>\n          <div class=\"summary " ++ summaryCls ++
    "\">" ++ escapeHtml ev.summary ++
    "</div>\n          <div class=\"meta " ++ metaCls ++
    "\">" ++ escapeHtml ev.location ++ " " ++
    (if timeRangeOf ev = "" then "" else " • " ++ timeRangeOf ev) ++
    "</div>\n          " ++ descBlock ++ "\n        </div>\n      "

/-- One group section of `renderHTML` (source lines 262-264). -/
def groupHtml (opts : Opts) (g : Group) : String :=
  "<section class=\"group\"><h2>" ++ escapeHtml g.groupKey ++ "</h2>" ++
    String.intercalate newlineSep (g.events.map (eventHtml opts)) ++ "</section>"

/-- The embedded stylesheet of `renderHTML` (source lines 209-223). -/
def cssText : String :=
  "\n    body \x7b font-family: -apple-system, system-ui, \"Segoe UI\", Roboto, \"Helvetica Neue\", Arial; margin: 1rem; color: #111; \x7d\n    h1 \x7b text-align: center; margin-bottom: 0.5rem; \x7d\n    .group \x7b margin-top: 1rem; page-break-inside: avoid; \x7d\n    .group > h2 \x7b margin-block-start: 1.2rem; margin-block-end: 0.4rem; \x7d\n    .date \x7b page-break-inside: avoid; margin-block-start: 0.4rem; margin-block-end: 0.2rem; \x7d\n    .event \x7b border-bottom: 1px solid #ddd; padding: 0.3rem 0; page-break-inside: avoid; \x7d\n    .summary \x7b font-weight: 600; \x7d\n    .meta \x7b color: #555; font-size: 0.95rem; \x7d\n    .hidden \x7b display: none; \x7d\n    @media print \x7b\n      body \x7b margin: 0.4in; \x7d\n      .event \x7b page-break-inside: avoid; \x7d\n    \x7d\n  "

/-- Embeds `renderHTML` (source lines 207-281): group the (already sorted)
events and emit the complete document, escaping the title once in the
`title` element and once in the `h1` heading. -/
def renderHTML (title : String) (events : List EventItem) (opts : Opts) : String :=
  let grouped := groupByMonth events
  let bodyHtml := String.intercalate newlineSep (grouped.map (groupHtml opts))
  "<!doctype html>\n<html lang=\"en\">\n<head>\n  <meta charset=\"utf-8\">\n  <title>" ++
    escapeHtml title ++
    "</title>\n  <meta name=\"viewport\" content=\"width=device-width,initial-scale=1\">\n  <style>" ++
    cssText ++
    "</style>\n</head>\n<body>\n  <h1>" ++ escapeHtml title ++ "</h1>\n  " ++
    bodyHtml ++ "\n</body>\n</html>"

/-!  Concrete events used by counterexamples and witnesses. -/
/-- Event "Beta" with start and end at the epoch. -/
def evBeta : EventItem := ⟨none, "Beta", "", "", some 0, some 0⟩

/-- Event "Alpha" with start and end at the epoch. -/
def evAlpha : EventItem := ⟨none, "Alpha", "", "", some 0, some 0⟩

/-- An event with no start and no end. -/
def evNoStart : EventItem := ⟨none, "NoStart", "", "", none, none⟩

/-- An event with an end instant but no start. -/
def evEndOnly : EventItem := ⟨none, "EndOnly", "", "", none, some 0⟩

/-- A concrete filter pattern used by witnesses. -/
def gamePat : String := "Game"

/-- Modelled from the spec's words (section 4.3 and claim C2): the
three-rule comparator read as a non-violation check for an ordered pair
`(a, b)`: an absent-start `a` may not precede a present-start `b`; two
present starts must be in ascending instant order; two absent starts must
be in `localeCompare` order of the summaries. -/
def noViolation (a b : EventItem) : Bool :=
  match a.start, b.start with
  | none, some _ => false
  | some _, none => true
  | some x, some y => x ≤ y
  | none, none => localeCompare a.summary b.summary ≤ 0

theorem insertSorted_perm (le : α → α → Bool) (x : α) (l : List α) :
    (insertSorted le x l).Perm (x :: l) := by
  induction l with
  | nil => exact List.Perm.refl _
  | cons y ys ih =>
    by_cases h : le x y = true
    · simp [insertSorted, h]
    · have hstep : insertSorted le x (y :: ys) = y :: insertSorted le x ys := by
        simp [insertSorted, h]
      rw [hstep]
      exact (ih.cons y).trans (List.Perm.swap x y ys)

theorem sortByComparator_perm (le : α → α → Bool) (l : List α) :
    (sortByComparator le l).Perm l := by
  induction l with
  | nil => exact List.Perm.refl _
  | cons x xs ih =>
    have h1 : sortByComparator le (x :: xs) = insertSorted le x (sortByComparator le xs) := rfl
    rw [h1]
    exact (insertSorted_perm le x _).trans (ih.cons x)

theorem insertSorted_pairwise (le : α → α → Bool)
    (htrans : ∀ a b c, le a b = true → le b c = true → le a c = true)
    (htot : ∀ a b, le a b = true ∨ le b a = true)
    (x : α) (l : List α) (hl : l.Pairwise (le · · = true)) :
    (insertSorted le x l).Pairwise (le · · = true) := by
  induction l with
  | nil => simp [insertSorted]
  | cons y ys ih =>
    rcases List.pairwise_cons.mp hl with ⟨hy, hys⟩
    by_cases h : le x y = true
    · simp only [insertSorted, h, ite_true]
      refine List.pairwise_cons.mpr ⟨?_, hl⟩
      intro b hb
      rcases List.mem_cons.mp hb with hb | hb
      · exact hb ▸ h
      · exact htrans x y b h (hy b hb)
    · have hyx : le y x = true := (htot x y).resolve_left h
      simp only [insertSorted, h, ite_false]
      refine List.pairwise_cons.mpr ⟨?_, ih hys⟩
      intro b hb
      have hb' : b ∈ x :: ys := (insertSorted_perm le x ys).mem_iff.mp hb
      rcases List.mem_cons.mp hb' with hb' | hb'
      · exact hb' ▸ hyx
      · exact hy b hb'

theorem sortByComparator_pairwise (le : α → α → Bool)
    (htrans : ∀ a b c, le a b = true → le b c = true → le a c = true)
    (htot : ∀ a b, le a b = true ∨ le b a = true)
    (l : List α) : (sortByComparator le l).Pairwise (le · · = true) := by
  induction l with
  | nil => simp [sortByComparator]
  | cons x xs ih => exact insertSorted_pairwise le htrans htot x _ ih

theorem charListCompare_trans :
    ∀ a b c : List Char, charListCompare a b ≤ 0 → charListCompare b c ≤ 0 →
      charListCompare a c ≤ 0 := by
  intro a
  induction a with
  | nil =>
    intro b c h1 h2
    cases c <;> simp [charListCompare]
  | cons x as ih =>
    intro b c h1 h2
    cases b with
    | nil => simp [charListCompare] at h1
    | cons y bs =>
      cases c with
      | nil => simp [charListCompare] at h2
      | cons z cs =>
        simp only [charListCompare] at h1 h2 ⊢
        by_cases hxy : x.toNat < y.toNat <;> by_cases hyx : y.toNat < x.toNat <;>
          by_cases hyz : y.toNat < z.toNat <;> by_cases hzy : z.toNat < y.toNat <;>
          by_cases hxz : x.toNat < z.toNat <;> by_cases hzx : z.toNat < x.toNat <;>
          simp only [hxy, hyx, hyz, hzy, hxz, hzx, ite_true, ite_false] at h1 h2 ⊢ <;>
          first
            | omega
            | exact ih bs cs h1 h2

theorem charListCompare_total :
    ∀ a b : List Char, charListCompare a b ≤ 0 ∨ charListCompare b a ≤ 0 := by
  intro a
  induction a with
  | nil =>
    intro b
    cases b <;> simp [charListCompare]
  | cons x as ih =>
    intro b
    cases b with
    | nil => simp [charListCompare]
    | cons y bs =>
      simp only [charListCompare]
      by_cases hxy : x.toNat < y.toNat <;> by_cases hyx : y.toNat < x.toNat <;>
        simp only [hxy, hyx, ite_true, ite_false] <;>
        first
          | omega
          | exact ih bs

theorem localeCompare_trans (s t u : String) :
    localeCompare s t ≤ 0 → localeCompare t u ≤ 0 → localeCompare s u ≤ 0 :=
  charListCompare_trans s.data t.data u.data

theorem localeCompare_total (s t : String) :
    localeCompare s t ≤ 0 ∨ localeCompare t s ≤ 0 :=
  charListCompare_total s.data t.data

theorem cmpEvents_trans (a b c : EventItem) :
    cmpEvents a b ≤ 0 → cmpEvents b c ≤ 0 → cmpEvents a c ≤ 0 := by
  rcases ha : a.start with _ | x <;> rcases hb : b.start with _ | y <;>
    rcases hc : c.start with _ | z <;>
    simp only [cmpEvents, ha, hb, hc] <;> intro h1 h2 <;>
    try omega
  all_goals
    exact localeCompare_trans _ _ _ h1 h2

theorem cmpEvents_total (a b : EventItem) :
    cmpEvents a b ≤ 0 ∨ cmpEvents b a ≤ 0 := by
  rcases ha : a.start with _ | x <;> rcases hb : b.start with _ | y <;>
    simp only [cmpEvents, ha, hb]
  · exact localeCompare_total _ _
  · omega
  · omega
  · omega

theorem leEvents_trans (a b c : EventItem) :
    leEvents a b = true → leEvents b c = true → leEvents a c = true := by
  simp only [leEvents, decide_eq_true_eq]
  exact cmpEvents_trans a b c

theorem leEvents_total (a b : EventItem) :
    leEvents a b = true ∨ leEvents b a = true := by
  simp only [leEvents, decide_eq_true_eq]
  exact cmpEvents_total a b

theorem cmpGroup_trans (a b c : EventItem) :
    cmpGroup a b ≤ 0 → cmpGroup b c ≤ 0 → cmpGroup a c ≤ 0 := by
  have lct : ∀ s t u : String, localeCompare s t ≤ 0 → localeCompare t u ≤ 0 →
      localeCompare s u ≤ 0 := localeCompare_trans
  rcases ha : a.start with _ | x <;> rcases hb : b.start with _ | y <;>
    rcases hc : c.start with _ | z <;>
    simp only [cmpGroup, ha, hb, hc] <;> intro h1 h2 <;> try omega
  · exact lct _ _ _ h1 h2
  · by_cases hxy : x = y <;> by_cases hyz : y = z <;> by_cases hxz : x = z <;>
      simp only [hxy, hyz, hxz, ite_true, ite_false] at * <;>
      first
        | exact lct _ _ _ h1 h2
        | omega

theorem cmpGroup_total (a b : EventItem) :
    cmpGroup a b ≤ 0 ∨ cmpGroup b a ≤ 0 := by
  have lcw : ∀ s t : String, localeCompare s t ≤ 0 ∨ localeCompare t s ≤ 0 :=
    localeCompare_total
  rcases ha : a.start with _ | x <;> rcases hb : b.start with _ | y <;>
    simp only [cmpGroup, ha, hb]
  · exact lcw _ _
  · omega
  · omega
  · by_cases hxy : x = y
    · subst hxy
      simp only [ite_true]
      exact lcw _ _
    · have hyx : ¬ y = x := fun h => hxy h.symm
      simp only [hxy, hyx, ite_false]
      omega

theorem leGroup_trans (a b c : EventItem) :
    leGroup a b = true → leGroup b c = true → leGroup a c = true := by
  simp only [leGroup, decide_eq_true_eq]
  exact cmpGroup_trans a b c

theorem leGroup_total (a b : EventItem) :
    leGroup a b = true ∨ leGroup b a = true := by
  simp only [leGroup, decide_eq_true_eq]
  exact cmpGroup_total a b

theorem foldl_groupStep_eq_consume (l : List EventItem) :
    ∀ (done : List Group) (g : Group),
      List.foldl groupStep (done ++ [g]) l = done ++ consume g l := by
  induction l with
  | nil => intro done g; simp [consume]
  | cons e rest ih =>
    intro done g
    by_cases h : g.groupKey = groupKeyOf e
    · have hstep : groupStep (done ++ [g]) e =
          done ++ [⟨g.groupKey, g.events ++ [e]⟩] := by
        simp [groupStep, List.getLast?_concat, List.dropLast_concat, h]
      have hcons : consume g (e :: rest) =
          consume ⟨g.groupKey, g.events ++ [e]⟩ rest := by
        simp [consume, h.symm]
      rw [List.foldl_cons, hstep, ih, hcons]
    · have h' : ¬ groupKeyOf e = g.groupKey := fun hh => h hh.symm
      have hstep : groupStep (done ++ [g]) e =
          (done ++ [g]) ++ [⟨groupKeyOf e, [e]⟩] := by
        simp [groupStep, List.getLast?_concat, List.dropLast_concat, h]
      have hcons : consume g (e :: rest) =
          g :: consume ⟨groupKeyOf e, [e]⟩ rest := by
        simp [consume, h']
      rw [List.foldl_cons, hstep, ih, hcons]
      simp

theorem specChunk_nil : specChunk [] = [] := rfl

theorem specChunk_cons (e : EventItem) (rest : List EventItem) :
    specChunk (e :: rest) =
      match specChunk rest with
      | [] => [⟨groupKeyOf e, [e]⟩]
      | g :: gs =>
          if groupKeyOf e == g.groupKey then ⟨g.groupKey, e :: g.events⟩ :: gs
          else ⟨groupKeyOf e, [e]⟩ :: g :: gs := rfl

theorem mergeLeft_nil (g : Group) : mergeLeft g [] = [g] := rfl

theorem mergeLeft_cons (g h : Group) (t : List Group) :
    mergeLeft g (h :: t) =
      if h.groupKey == g.groupKey then ⟨g.groupKey, g.events ++ h.events⟩ :: t
      else g :: h :: t := rfl

theorem consume_eq_mergeLeft (l : List EventItem) :
    ∀ g : Group, consume g l = mergeLeft g (specChunk l) := by
  induction l with
  | nil => intro g; rw [specChunk_nil, mergeLeft_nil]; rfl
  | cons e rest ih =>
    intro g
    by_cases h : groupKeyOf e = g.groupKey
    · have hl : consume g (e :: rest) = consume ⟨g.groupKey, g.events ++ [e]⟩ rest := by
        simp [consume, h]
      rw [hl, ih, specChunk_cons]
      rcases hsc : specChunk rest with _ | ⟨g', gs⟩
      · rw [mergeLeft_nil]
        simp [mergeLeft_cons, beq_iff_eq, h]
      · by_cases h2 : groupKeyOf e = g'.groupKey
        · simp only [mergeLeft_cons, beq_iff_eq, h2, ite_true]
          have h3 : g'.groupKey = g.groupKey := h2.symm.trans h
          simp [mergeLeft_cons, beq_iff_eq, h3, h2.symm]
        · simp only [mergeLeft_cons, beq_iff_eq, h2, ite_false]
          have h3 : ¬ g'.groupKey = g.groupKey := fun hh => h2 (h.trans hh.symm)
          simp [mergeLeft_cons, beq_iff_eq, h3, h]
    · have hl : consume g (e :: rest) = g :: consume ⟨groupKeyOf e, [e]⟩ rest := by
        simp [consume, h]
      rw [hl, ih, specChunk_cons]
      rcases hsc : specChunk rest with _ | ⟨g', gs⟩
      · rw [mergeLeft_nil]
        simp [mergeLeft_cons, beq_iff_eq, h]
      · by_cases h2 : groupKeyOf e = g'.groupKey
        · simp only [mergeLeft_cons, beq_iff_eq, h2, ite_true]
          have h3 : ¬ g'.groupKey = g.groupKey := fun hh => h (h2.trans hh)
          simp [mergeLeft_cons, beq_iff_eq, h2, h3, h]
        · simp only [mergeLeft_cons, beq_iff_eq, h2, ite_false]
          have h3 : ¬ g'.groupKey = groupKeyOf e := fun hh => h2 hh.symm
          simp [mergeLeft_cons, beq_iff_eq, h2, h3, h]

theorem groupByMonth_eq_specChunk (events : List EventItem) :
    groupByMonth events = specChunk (gsortEvents events) := by
  unfold groupByMonth
  rcases hs : gsortEvents events with _ | ⟨e, rest⟩
  · rw [List.foldl_nil, specChunk_nil]
  · have hstep : groupStep [] e = [] ++ [(⟨groupKeyOf e, [e]⟩ : Group)] := by
      simp [groupStep]
    rw [List.foldl_cons, hstep, foldl_groupStep_eq_consume, consume_eq_mergeLeft,
      specChunk_cons]
    rcases hsc : specChunk rest with _ | ⟨g', gs⟩
    · rw [mergeLeft_nil]
      rfl
    · by_cases h2 : groupKeyOf e = g'.groupKey
      · simp [mergeLeft_cons, beq_iff_eq, h2]
      · have h3 : ¬ g'.groupKey = groupKeyOf e := fun hh => h2 hh.symm
        simp [mergeLeft_cons, beq_iff_eq, h2, h3]

theorem specChunk_flatten (l : List EventItem) :
    (specChunk l).flatMap Group.events = l := by
  induction l with
  | nil => rfl
  | cons e rest ih =>
    rw [specChunk_cons]
    rcases hsc : specChunk rest with _ | ⟨g', gs⟩
    · rw [hsc] at ih
      simp only [List.flatMap_nil] at ih
      simp [← ih]
    · rw [hsc] at ih
      by_cases h2 : groupKeyOf e = g'.groupKey
      · simp only [beq_iff_eq, h2, ite_true]
        simp only [List.flatMap_cons] at ih ⊢
        simp [← ih]
      · simp only [beq_iff_eq, h2, ite_false]
        simp only [List.flatMap_cons] at ih ⊢
        simpa using ih

theorem specChunk_mem (l : List EventItem) :
    ∀ g ∈ specChunk l, g.events ≠ [] ∧ ∀ e ∈ g.events, groupKeyOf e = g.groupKey := by
  induction l with
  | nil => intro g hg; simp [specChunk_nil] at hg
  | cons e rest ih =>
    intro g hg
    rw [specChunk_cons] at hg
    rcases hsc : specChunk rest with _ | ⟨g', gs⟩ <;> rw [hsc] at hg
    · simp only [List.mem_singleton] at hg
      subst hg
      refine ⟨by simp, ?_⟩
      intro x hx
      simp only [List.mem_singleton] at hx
      subst hx
      rfl
    · have ih' := hsc ▸ ih
      by_cases h2 : groupKeyOf e = g'.groupKey <;>
        simp only [beq_iff_eq, h2, ite_true, ite_false] at hg
      · rcases List.mem_cons.mp hg with hg | hg
        · subst hg
          have hg' := ih' g' (List.mem_cons_self g' gs)
          refine ⟨by simp, ?_⟩
          intro x hx
          rcases List.mem_cons.mp hx with hx | hx
          · exact hx ▸ h2
          · exact hg'.2 x hx
        · exact ih' g (List.mem_cons_of_mem g' hg)
      · rcases List.mem_cons.mp hg with hg | hg
        · subst hg
          refine ⟨by simp, ?_⟩
          intro x hx
          simp only [List.mem_singleton] at hx
          subst hx
          rfl
        · exact ih' g hg

theorem specChunk_adjacentDistinct (l : List EventItem) :
    adjacentDistinct (specChunk l) = true := by
  induction l with
  | nil => rfl
  | cons e rest ih =>
    rw [specChunk_cons]
    rcases hsc : specChunk rest with _ | ⟨g', gs⟩ <;> rw [hsc] at ih
    · rfl
    · by_cases h2 : groupKeyOf e = g'.groupKey <;>
        simp only [beq_iff_eq, h2, ite_true, ite_false]
      · rcases gs with _ | ⟨b, t⟩
        · rfl
        · simp only [adjacentDistinct, Bool.and_eq_true] at ih ⊢
          exact ih
      · simp only [adjacentDistinct, Bool.and_eq_true, bne_iff_ne]
        exact ⟨h2, ih⟩

theorem formatMonthYear_ne_unknown (t : Int) : formatMonthYear t ≠ "Unknown" := by
  intro h
  have hd := congrArg String.data h
  rw [formatMonthYear] at hd
  rw [String.data_append, String.data_append] at hd
  have hsp : (' ') ∈ (monthName (monthOf t)).data ++ (" ").data ++ (pad4 (yearOf t)).data := by
    refine List.mem_append.mpr (Or.inl (List.mem_append.mpr (Or.inr ?_)))
    decide
  rw [hd] at hsp
  revert hsp
  decide

theorem groupKeyOf_eq_unknown (e : EventItem) :
    groupKeyOf e = "Unknown" ↔ e.start = none := by
  constructor
  · intro h
    rcases hs : e.start with _ | t
    · rfl
    · exfalso
      rw [groupKeyOf, hs] at h
      exact formatMonthYear_ne_unknown t h
  · intro h
    rw [groupKeyOf, h]

theorem specChunk_unknown_last (l : List EventItem)
    (hp : l.Pairwise (leGroup · · = true)) :
    ∀ g ∈ (specChunk l).dropLast, g.groupKey ≠ "Unknown" := by
  induction l with
  | nil => intro g hg; simp [specChunk_nil] at hg
  | cons e rest ih =>
    rcases List.pairwise_cons.mp hp with ⟨he, hrest⟩
    intro g hg
    rw [specChunk_cons] at hg
    rcases hsc : specChunk rest with _ | ⟨g', gs⟩ <;> rw [hsc] at hg
    · simp at hg
    · have ih' := hsc ▸ ih hrest
      by_cases h2 : groupKeyOf e = g'.groupKey <;>
        simp only [beq_iff_eq, h2, ite_true, ite_false] at hg
      · rcases gs with _ | ⟨b, t⟩
        · simp at hg
        · rw [List.dropLast_cons₂] at hg
          rcases List.mem_cons.mp hg with hg | hg
          · subst hg
            have := ih' g' (by rw [List.dropLast_cons₂]; exact List.mem_cons_self _ _)
            simpa using this
          · exact ih' g (by rw [List.dropLast_cons₂]; exact List.mem_cons_of_mem _ hg)
      · rw [List.dropLast_cons₂] at hg
        rcases List.mem_cons.mp hg with hg | hg
        · subst hg
          simp only []
          intro hu
          have hestart : e.start = none := (groupKeyOf_eq_unknown e).mp hu
          have hg'mem := specChunk_mem rest g' (hsc ▸ List.mem_cons_self g' gs)
          rcases hg'mem with ⟨hne, hkeys⟩
          rcases hev : g'.events with _ | ⟨ev', evs⟩
          · exact hne hev
          · have hev'mem : ev' ∈ rest := by
              have : ev' ∈ (specChunk rest).flatMap Group.events :=
                List.mem_flatMap.mpr ⟨g', hsc ▸ List.mem_cons_self g' gs,
                  hev ▸ List.mem_cons_self ev' evs⟩
              rwa [specChunk_flatten] at this
            have hle : leGroup e ev' = true := he ev' hev'mem
            rw [leGroup, decide_eq_true_eq] at hle
            have hev'start : ev'.start = none := by
              rcases hs' : ev'.start with _ | t
              · rfl
              · exfalso
                rw [cmpGroup] at hle
                rw [hestart, hs'] at hle
                simp at hle
            have : groupKeyOf ev' = "Unknown" := (groupKeyOf_eq_unknown ev').mpr hev'start
            have hkey : groupKeyOf ev' = g'.groupKey :=
              hkeys ev' (hev ▸ List.mem_cons_self ev' evs)
            exact h2 (hu.trans (this ▸ hkey))
        · exact ih' g hg

theorem unknown_filter_le_one (gs : List Group)
    (hdl : ∀ g ∈ gs.dropLast, g.groupKey ≠ "Unknown") :
    (gs.filter fun g => g.groupKey == "Unknown").length ≤ 1 := by
  induction gs with
  | nil => simp
  | cons h t ih =>
    rcases t with _ | ⟨b, t'⟩
    · by_cases hk : h.groupKey = "Unknown" <;>
        simp [List.filter_cons, List.filter_nil, beq_iff_eq, hk]
    · rw [List.dropLast_cons₂] at hdl
      have hh : ¬ h.groupKey = "Unknown" := hdl h (List.mem_cons_self _ _)
      have hrest : ∀ g ∈ (b :: t').dropLast, g.groupKey ≠ "Unknown" := by
        intro g hg
        exact hdl g (List.mem_cons_of_mem _ hg)
      have := ih hrest
      simpa [List.filter_cons, beq_iff_eq, hh] using this

theorem flatMap_comp (l : List Char) (f g : Char → List Char) :
    (l.flatMap f).flatMap g = l.flatMap fun x => (f x).flatMap g := by
  induction l with
  | nil => rfl
  | cons a as ih => simp [List.flatMap_cons, List.flatMap_append, ih]

theorem replaceAllC_data (c : Char) (r s : String) :
    (replaceAllC c r s).data = s.data.flatMap fun x => if x = c then r.data else [x] := rfl

theorem escapeHtml_data (s : String) : (escapeHtml s).data = s.data.flatMap escC := by
  by_cases h : s = ""
  · subst h
    rfl
  · rw [escapeHtml, if_neg h]
    rw [replaceAllC_data, replaceAllC_data, replaceAllC_data, replaceAllC_data,
      replaceAllC_data]
    rw [flatMap_comp, flatMap_comp, flatMap_comp, flatMap_comp]
    apply List.flatMap_congr
    intro x _
    by_cases h1 : x = ampC
    · subst h1; decide
    · by_cases h2 : x = ltC
      · subst h2; decide
      · by_cases h3 : x = gtC
        · subst h3; decide
        · by_cases h4 : x = quotC
          · subst h4; decide
          · by_cases h5 : x = aposC
            · subst h5; decide
            · simp [escC, h1, h2, h3, h4, h5]

theorem escapedClean_cons_plain (c : Char) (rest : List Char)
    (h1 : isRawSpecial c = false) (h2 : (c == ampC) = false) :
    escapedClean (c :: rest) = escapedClean rest := by
  simp [escapedClean, h1, h2]

theorem escapedClean_cons_amp (rest : List Char) :
    escapedClean (ampC :: rest) = (isEntityStart rest && escapedClean rest) := by
  have h1 : isRawSpecial ampC = false := by decide
  simp [escapedClean, h1]

theorem escapedClean_append_plain (l t : List Char)
    (h : l.all (fun c => !isRawSpecial c && !(c == ampC)) = true) :
    escapedClean (l ++ t) = escapedClean t := by
  induction l with
  | nil => rfl
  | cons a as ih =>
    rw [List.all_cons, Bool.and_eq_true, Bool.and_eq_true] at h
    rcases h with ⟨⟨ha1, ha2⟩, has⟩
    rw [List.cons_append,
      escapedClean_cons_plain a _ (by simpa using ha1) (by simpa using ha2)]
    exact ih has

theorem escapedClean_entity (tl t : List Char) (htl : tl ∈ entityTails)
    (hplain : tl.all (fun c => !isRawSpecial c && !(c == ampC)) = true) :
    escapedClean ((ampC :: tl) ++ t) = escapedClean t := by
  rw [List.cons_append, escapedClean_cons_amp]
  have h1 : isEntityStart (tl ++ t) = true :=
    List.any_eq_true.mpr
      ⟨tl, htl, List.isPrefixOf_iff_prefix.mpr (List.prefix_append tl t)⟩
  rw [h1, Bool.true_and, escapedClean_append_plain tl t hplain]

theorem escapedClean_escC (x : Char) (t : List Char) :
    escapedClean (escC x ++ t) = escapedClean t := by
  by_cases h1 : x = ampC
  · subst h1
    have hd : escC ampC = ampC :: entAmp.data.tail := by decide
    rw [hd]
    exact escapedClean_entity _ t (by decide) (by decide)
  · by_cases h2 : x = ltC
    · subst h2
      have hd : escC ltC = ampC :: entLt.data.tail := by decide
      rw [hd]
      exact escapedClean_entity _ t (by decide) (by decide)
    · by_cases h3 : x = gtC
      · subst h3
        have hd : escC gtC = ampC :: entGt.data.tail := by decide
        rw [hd]
        exact escapedClean_entity _ t (by decide) (by decide)
      · by_cases h4 : x = quotC
        · subst h4
          have hd : escC quotC = ampC :: entQuot.data.tail := by decide
          rw [hd]
          exact escapedClean_entity _ t (by decide) (by decide)
        · by_cases h5 : x = aposC
          · subst h5
            have hd : escC aposC = ampC :: entApos.data.tail := by decide
            rw [hd]
            exact escapedClean_entity _ t (by decide) (by decide)
          · have hd : escC x = [x] := by simp [escC, h1, h2, h3, h4, h5]
            rw [hd, List.singleton_append]
            refine escapedClean_cons_plain x t ?_ ?_
            · simp [isRawSpecial, h2, h3, h4, h5]
            · simp [h1]

theorem escapedClean_flatMap (l : List Char) :
    escapedClean (l.flatMap escC) = true := by
  induction l with
  | nil => rfl
  | cons a as ih => rw [List.flatMap_cons, escapedClean_escC a _]; exact ih

theorem pad2_data_ne_nil (n : Int) : (pad2 n).data ≠ [] := by
  unfold pad2
  split <;> exact List.cons_ne_nil _ _

theorem timeOfDayStr_ne_empty (t : Int) : timeOfDayStr t ≠ "" := by
  intro h
  have hd := congrArg String.data h
  rw [timeOfDayStr] at hd
  simp only [String.data_append] at hd
  rcases List.append_eq_nil.mp hd with ⟨hd1, _⟩
  rcases List.append_eq_nil.mp hd1 with ⟨hd2, _⟩
  rcases List.append_eq_nil.mp hd2 with ⟨hd3, _⟩
  rcases List.append_eq_nil.mp hd3 with ⟨hd4, _⟩
  exact pad2_data_ne_nil _ hd4

theorem formatTime_some_ne_empty (t : Int) : formatTime (some t) ≠ "" :=
  timeOfDayStr_ne_empty t

theorem leEvents_implies_noViolation {a b : EventItem} (h : leEvents a b = true) :
    noViolation a b = true := by
  rcases ha : a.start with _ | x <;> rcases hb : b.start with _ | y <;>
    simp [leEvents, noViolation, cmpEvents, ha, hb, decide_eq_true_eq] at h ⊢ <;>
    omega

theorem pairwise_absent_suffix (l : List EventItem)
    (hp : l.Pairwise (leEvents · · = true)) :
    ((l.dropWhile fun e => e.start.isSome).all fun e => e.start.isNone) = true := by
  induction l with
  | nil => rfl
  | cons e rest ih =>
    rcases List.pairwise_cons.mp hp with ⟨he, hrest⟩
    by_cases hs : e.start.isSome = true
    · rw [List.dropWhile_cons]
      simp only [hs, ite_true]
      exact ih hrest
    · have hnone : e.start = none := Option.not_isSome_iff_eq_none.mp hs
      rw [List.dropWhile_cons]
      rw [if_neg (by simp [hnone])]
      rw [List.all_cons, Bool.and_eq_true]
      refine ⟨by simp [hnone], ?_⟩
      rw [List.all_eq_true]
      intro x hx
      have hle := he x hx
      rw [leEvents, decide_eq_true_eq] at hle
      rcases hxs : x.start with _ | t
      · simp
      · exfalso
        rw [cmpEvents, hnone, hxs] at hle
        simp at hle

theorem specChunk_all_ok (l : List EventItem) :
    ((specChunk l).all fun g =>
      (!g.events.isEmpty) && (g.events.all fun e => groupKeyOf e == g.groupKey)) = true := by
  rw [List.all_eq_true]
  intro g hg
  rcases specChunk_mem l g hg with ⟨h1, h2⟩
  rw [Bool.and_eq_true]
  constructor
  · simp [List.isEmpty_iff, h1]
  · rw [List.all_eq_true]
    intro e he
    rw [beq_iff_eq]
    exact h2 e he

/-!  The claims. -/
/-- Claim C1: when no (or an empty) filter pattern is supplied the filter
stage is the identity; with a compiled matcher, an event is retained iff
the matcher's test of the haystack `summary ++ "\n" ++ description ++
"\n" ++ location` (in that order) succeeds, negated under `invert`; and
`makeMatcher` compiles a non-empty pattern into a regex whose
`ignoreCase` flag is set exactly when `caseSensitive` is off. -/
theorem claim1_filter_semantics (syntaxCheck : String → Option String)
    (test : RegExpM → String → Bool) (events : List EventItem) (invert : Bool)
    (p : String) (csens : Bool) (hp : p ≠ "") (hok : syntaxCheck p = none) :
    applyFilter test events none invert = events ∧
    (∀ m : RegExpM, applyFilter test events (some m) invert =
      events.filter fun e =>
        if invert then !(test m (e.summary ++ "\n" ++ e.description ++ "\n" ++ e.location))
        else test m (e.summary ++ "\n" ++ e.description ++ "\n" ++ e.location)) ∧
    makeMatcher syntaxCheck (some p) csens = Except.ok (some ⟨p, !csens⟩) := by
  refine ⟨rfl, fun m => rfl, ?_⟩
  simp [makeMatcher, newRegExp, hp, hok, Except.map]

/-- Witness for C1 at a concrete pattern, matcher and event list. -/
theorem claim1_filter_semantics_witness :
    applyFilter (fun _ _ => true) [evAlpha] none false = [evAlpha] ∧
    makeMatcher (fun _ => none) (some gamePat) false = Except.ok (some ⟨gamePat, !false⟩) :=
  ⟨(claim1_filter_semantics (fun _ => none) (fun _ _ => true) [evAlpha] false
      gamePat false (by decide) rfl).1,
    (claim1_filter_semantics (fun _ => none) (fun _ _ => true) [evAlpha] false
      gamePat false (by decide) rfl).2.2⟩

/-- Claim C2: `sortEvents` permutes its input; in the output no pair (in
particular no adjacent pair) violates the three comparator rules; and all
absent-start events appear after all present-start events (once the
leading present-start events are dropped, only absent-start events
remain). -/
theorem claim2_sortEvents_correct (evs : List EventItem) :
    (sortEvents evs).Perm evs ∧
    List.Chain' (fun a b => noViolation a b = true) (sortEvents evs) ∧
    (((sortEvents evs).dropWhile fun e => e.start.isSome).all
      fun e => e.start.isNone) = true := by
  have hpair : (sortEvents evs).Pairwise (leEvents · · = true) :=
    sortByComparator_pairwise leEvents leEvents_trans leEvents_total evs
  refine ⟨sortByComparator_perm leEvents evs, ?_, pairwise_absent_suffix _ hpair⟩
  exact (hpair.imp fun h => leEvents_implies_noViolation h).chain'

/-- Counterexample to claim C3: two events with the same present start
whose summaries are in descending order.  The stable sorter keeps them in
input order, but the grouper re-sorts with a summary tie-break, so the
concatenation of the groups' event sequences does not reproduce the
sorter's output. -/
theorem claim3_counterexample :
    sortEvents [evBeta, evAlpha] = [evBeta, evAlpha] ∧
    (groupByMonth (sortEvents [evBeta, evAlpha])).flatMap Group.events = [evAlpha, evBeta] ∧
    (groupByMonth (sortEvents [evBeta, evAlpha])).flatMap Group.events ≠
      sortEvents [evBeta, evAlpha] := by
  refine ⟨by decide, by decide, by decide⟩

/-- Claim C3 as amended: concatenating the groups' event sequences
reproduces the grouper's own re-sort of the sorter's output — a
permutation of it ordered by `cmpGroup` (start ascending with absent
last, and ties, including equal present starts, broken by the summary
comparison) — rather than the sorter's output itself. -/
theorem claim3_amended_group_concat (evs : List EventItem) :
    (groupByMonth (sortEvents evs)).flatMap Group.events =
      gsortEvents (sortEvents evs) ∧
    (gsortEvents (sortEvents evs)).Perm (sortEvents evs) ∧
    (gsortEvents (sortEvents evs)).Pairwise fun a b => cmpGroup a b ≤ 0 := by
  refine ⟨?_, sortByComparator_perm leGroup _, ?_⟩
  · rw [groupByMonth_eq_specChunk, specChunk_flatten]
  · have hpair := sortByComparator_pairwise leGroup leGroup_trans leGroup_total
      (sortEvents evs)
    exact hpair.imp fun h => by rwa [leGroup, decide_eq_true_eq] at h

/-- Counterexample to claim C4: the grouper is not a chunking of its
input as given — on an absent-start event followed by a present-start
event, the internal re-sort moves the absent-start event (and hence the
`"Unknown"` group) to the end, whereas chunking the input in order would
put the `"Unknown"` group first. -/
theorem claim4_counterexample :
    groupByMonth [evNoStart, evAlpha] ≠ specChunk [evNoStart, evAlpha] ∧
    (groupByMonth [evNoStart, evAlpha]).map Group.groupKey =
      ["January 1970", "Unknown"] ∧
    (specChunk [evNoStart, evAlpha]).map Group.groupKey =
      ["Unknown", "January 1970"] := by
  refine ⟨by decide, by decide, by decide⟩

/-- Claim C4 as amended: the grouper is the single-pass chunking of its
internally re-sorted input (rather than of the input as given): keys are
the `MMMM yyyy` label of `start` or `"Unknown"`, exactly `"Unknown"` for
absent starts; every group is non-empty and carries exactly its events'
key; adjacent groups never share a key (so consecutive same-key events
accumulate into one group); and empty input yields an empty group
sequence. -/
theorem claim4_amended_grouper_chunking (evs : List EventItem) :
    groupByMonth evs = specChunk (gsortEvents evs) ∧
    (specChunk (gsortEvents evs)).flatMap Group.events = gsortEvents evs ∧
    ((specChunk (gsortEvents evs)).all fun g =>
      (!g.events.isEmpty) && (g.events.all fun e => groupKeyOf e == g.groupKey)) = true ∧
    adjacentDistinct (specChunk (gsortEvents evs)) = true ∧
    groupByMonth [] = [] ∧
    ∀ ev : EventItem, (groupKeyOf ev = "Unknown" ↔ ev.start = none) := by
  exact ⟨groupByMonth_eq_specChunk evs, specChunk_flatten _, specChunk_all_ok _,
    specChunk_adjacentDistinct _, rfl, groupKeyOf_eq_unknown⟩

/-- Claim C5: for every input string, `escapeHtml` replaces exactly the
five markup characters by their entities (ampersand first, per the
replacement table `escC`), and its output is escaped-clean: it contains
no raw `<`, `>`, `"` or `'` at all, and every `&` in it begins one of the
five entities. -/
theorem claim5_escaping (s : String) :
    (escapeHtml s).data = s.data.flatMap escC ∧
    escapedClean (escapeHtml s).data = true := by
  refine ⟨escapeHtml_data s, ?_⟩
  rw [escapeHtml_data s]
  exact escapedClean_flatMap s.data

/-- Counterexample to claim C6: for an event with an end but no start the
rendered time range is not "just the one side's formatted time" — it is
the en-dash separator followed by the formatted end time. -/
theorem claim6_counterexample :
    timeRangeOf evEndOnly = " – " ++ formatTime (some 0) ∧
    timeRangeOf evEndOnly ≠ formatTime (some 0) := by
  refine ⟨by decide, by decide⟩

/-- Claim C6 as amended: the time-range text is `start – end` when both
are present, just the formatted start when only the start is present, the
en-dash separator followed by the formatted end when only the end is
present, and empty when neither is present. -/
theorem claim6_amended_time_range (ev : EventItem) :
    timeRangeOf ev =
      match ev.start, ev.end_ with
      | some s, some e => formatTime (some s) ++ " – " ++ formatTime (some e)
      | some s, none => formatTime (some s)
      | none, some e => " – " ++ formatTime (some e)
      | none, none => "" := by
  unfold timeRangeOf
  rcases hs : ev.start with _ | s <;> rcases he : ev.end_ with _ | e <;>
    simp [formatTime_some_ne_empty, String.append_assoc]

/-- Claim C7: every rendered event entry always contains the date/time
heading (formatted from `start`, or the `?` placeholder when absent); the
summary and meta elements are always present and carry the `hidden` class
exactly when their toggle is off; the description element carries
`hidden` exactly when `includeDesc` is off, and is omitted from the tree
entirely exactly when the description is empty. -/
theorem claim7_entry_structure (opts : Opts) (ev : EventItem) :
    eventHtml opts ev = entrySpecView opts ev := by
  unfold eventHtml entrySpecView
  cases opts.includeSummary <;> cases opts.includeMeta <;> cases opts.includeDesc <;>
    by_cases hd : ev.description = "" <;> by_cases ht : timeRangeOf ev = "" <;>
    simp [hd, ht]

/-- Claim C8: the filter stage fails exactly when a non-empty pattern is
supplied and the regex engine rejects it, and it then fails with the
engine's error, before and independently of any event filtering; a valid
(or absent, or empty) pattern never raises and yields the filtered
events. -/
theorem claim8_invalid_pattern (syntaxCheck : String → Option String)
    (test : RegExpM → String → Bool) (opts : Opts) (events : List EventItem) :
    filterStage syntaxCheck test opts events =
      match opts.filter with
      | none => Except.ok events
      | some p =>
        if p = "" then Except.ok events
        else
          match syntaxCheck p with
          | some msg => Except.error msg
          | none =>
              Except.ok (applyFilter test events (some ⟨p, !opts.caseSensitive⟩)
                opts.invert) := by
  rcases hf : opts.filter with _ | p
  · simp [filterStage, optTruthy, hf, applyFilter]
  · by_cases hp : p = ""
    · simp [filterStage, optTruthy, hf, hp, applyFilter]
    · rcases hcs : syntaxCheck p with _ | msg <;>
        simp [filterStage, optTruthy, hf, hp, hcs, makeMatcher, newRegExp, Except.map]

/-- Claim C9: the filter stage output is always a sublist of its input —
retained events are input events, unmodified and in the same relative
order, whether or not a matcher is present. -/
theorem claim9_filter_sublist (test : RegExpM → String → Bool)
    (events : List EventItem) (matcher : Option RegExpM) (invert : Bool) :
    (applyFilter test events matcher invert).Sublist events := by
  cases matcher with
  | none => exact List.Sublist.refl _
  | some m => exact List.filter_sublist _

/-- Claim C10: the grouper's output contains at most one `"Unknown"`
group, and no group before the last one is `"Unknown"` — absent-start
events form a single trailing bucket. -/
theorem claim10_unknown_last (evs : List EventItem) :
    ((groupByMonth evs).filter fun g => g.groupKey == "Unknown").length ≤ 1 ∧
    ∀ g ∈ (groupByMonth evs).dropLast, g.groupKey ≠ "Unknown" := by
  have hpair : (gsortEvents evs).Pairwise (leGroup · · = true) :=
    sortByComparator_pairwise leGroup leGroup_trans leGroup_total evs
  have hdl := specChunk_unknown_last (gsortEvents evs) hpair
  rw [groupByMonth_eq_specChunk]
  exact ⟨unknown_filter_le_one _ hdl, hdl⟩

/-- Witness for C10 at a concrete event list with both a present-start
and an absent-start event. -/
theorem claim10_unknown_last_witness :
    ((groupByMonth [evAlpha, evNoStart]).filter fun g => g.groupKey == "Unknown").length ≤ 1 ∧
    (⟨"January 1970", [evAlpha]⟩ : Group).groupKey ≠ "Unknown" :=
  ⟨(claim10_unknown_last [evAlpha, evNoStart]).1,
    (claim10_unknown_last [evAlpha, evNoStart]).2 ⟨"January 1970", [evAlpha]⟩ (by decide)⟩

end IcalPrint
